import Mathlib

/-!
Verification of the retrieval pipeline of the `scout` repository.

This file gives a shallow embedding, in Lean 4, of the retrieval pipeline of
the repository: the line-aware chunker and file processing of
`app/services/indexing_service.py`, the in-memory vector backend of
`app/services/vector_store.py`, the caching batch embedder of
`app/services/embedding_service.py`, the clone step of
`app/services/repo_service.py`, and the score-threshold post-processing of
`app/agents/tools/search.py`.  Python `float` arithmetic is modelled over `ℚ`,
Python dicts keyed by strings are modelled as association lists with
insert-or-overwrite-in-place update (preserving dict insertion order), and
Python `str.split`, `str.join` and `in` (substring) are modelled by structural
recursion over the character list of the string.

Theorems named `c1_...` to `c10_...` settle the corresponding specification
claims about this code.
-/

namespace Scout

/-! ## String helpers

Structural models of the Python string operations used by the pipeline:
`str.split("\n")`, `"\n".join(lst)`, `needle in hay` (substring test) and
`str.strip()` emptiness.  They recurse over `String.data` so that they reduce
on concrete inputs.
-/

/-- Accumulator pass of `splitLines`: `acc` holds the characters of the
current (partial) line in reverse order.  Models Python `content.split("\n")`,
which always returns at least one element. -/
def splitLinesAux : List Char → List Char → List String
  | [], acc => [String.mk acc.reverse]
  | c :: rest, acc =>
      if c = '\n' then String.mk acc.reverse :: splitLinesAux rest []
      else splitLinesAux rest (c :: acc)

/-- Model of Python `content.split("\n")` (used at
`indexing_service.py:272`). -/
def splitLines (s : String) : List String :=
  splitLinesAux s.data []

/-- Model of Python `"\n".join(lines)` (used at `indexing_service.py:286`). -/
def joinLines : List String → String
  | [] => ""
  | [s] => s
  | s :: s₂ :: rest => s ++ "\n" ++ joinLines (s₂ :: rest)

/-- Whether `pat` occurs at the head of `l` (helper for the substring test). -/
def charsLead : List Char → List Char → Bool
  | [], _ => true
  | _ :: _, [] => false
  | a :: as, b :: bs => a = b && charsLead as bs

/-- Whether `pat` occurs somewhere inside `l` (helper for the substring
test). -/
def charsContain (pat : List Char) : List Char → Bool
  | [] => pat.isEmpty
  | c :: rest => charsLead pat (c :: rest) || charsContain pat rest

/-- Model of the Python substring test `needle in hay` (used at
`vector_store.py:168`). -/
def strContains (hay needle : String) : Bool :=
  charsContain needle.data hay.data

/-- Model of the Python emptiness test `not content.strip()` (used at
`indexing_service.py:243`): true iff every character is whitespace, in
particular for the empty string. -/
def isWhitespaceOnly (s : String) : Bool :=
  s.data.all Char.isWhitespace

/-! ## Vector arithmetic (`InMemoryBackend._cosine_similarity`)

Python `float` values are modelled as rationals.  The source computes
`norm_a = (Σ x²) ** 0.5` and tests `norm_a == 0`; over the non-negative reals
the square root is zero exactly when the squared norm is zero, so the model
guards on the squared norms, which stay rational.  The claims proved below
depend only on that zero-norm guard, never on the magnitude of the non-zero
branch. -/

/-- Model of `dot_product` at `vector_store.py:154`: Python `zip` truncates to
the shorter list, as does `List.zipWith`. -/
def dotProduct (a b : List ℚ) : ℚ :=
  (List.zipWith (· * ·) a b).sum

/-- Squared Euclidean norm, the quantity under the square root at
`vector_store.py:155`. -/
def normSq (a : List ℚ) : ℚ :=
  (a.map (fun x => x * x)).sum

/-- Model of `InMemoryBackend._cosine_similarity` (`vector_store.py:152`):
returns `0` when either vector has zero norm, otherwise the ratio of the dot
product to the product of the norms (represented here through the squared
norms, see the section comment). -/
def cosineSimilarity (a b : List ℚ) : ℚ :=
  if normSq a = 0 ∨ normSq b = 0 then 0
  else dotProduct a b / (normSq a * normSq b)

/-! ## Metadata and filters (`InMemoryBackend._matches_filter`)

Metadata values stored by the pipeline (`IndexingService._index_batch`) are
strings or integers; a filter maps a key either to a plain value (exact
equality), to a dict carrying a `$contains` key (substring test against
`str(value)`), or to any other dict, which the source accepts without any
check (the inner `if "$contains" in condition` has no `else`). -/

/-- A metadata value: the source stores strings and ints
(`indexing_service.py:373`). -/
inductive MetaVal where
  | str (s : String)
  | nat (n : Nat)
deriving DecidableEq, Repr

/-- Model of Python `str(value)` on a metadata value. -/
def MetaVal.toText : MetaVal → String
  | .str s => s
  | .nat n => toString n

/-- One filter condition, as dispatched by `_matches_filter`
(`vector_store.py:161`): a plain value compared with `!=`, a dict with a
`$contains` key, or a dict without one (which the source lets pass). -/
inductive Condition where
  | eqVal (v : MetaVal)
  | containsVal (s : String)
  | otherDict
deriving DecidableEq, Repr

/-- Metadata dict, modelled as an association list in insertion order. -/
abbrev Metadata := List (String × MetaVal)

/-- Filter dict, modelled as an association list in insertion order. -/
abbrev Filter := List (String × Condition)

/-- Model of `InMemoryBackend._matches_filter` (`vector_store.py:161`):
every filter entry must have its key present in the metadata and its
condition satisfied; a missing key fails the whole filter. -/
def matchesFilter (metadata : Metadata) (filter : Filter) : Bool :=
  filter.all fun kc =>
    match metadata.lookup kc.1 with
    | none => false
    | some v =>
        match kc.2 with
        | .eqVal w => v = w
        | .containsVal s => strContains v.toText s
        | .otherDict => true

/-! ## In-memory vector backend (`InMemoryBackend`)

The backend keeps a Python dict from id to `{embedding, content, metadata}`.
A dict is modelled as an association list in insertion order; writing to an
existing key overwrites the stored value in place (same position), writing a
new key appends. -/

/-- A stored entry of the in-memory backend (`vector_store.py:103`). -/
structure Entry where
  embedding : List ℚ
  content : String
  metadata : Metadata
deriving DecidableEq, Repr

/-- The in-memory store: a Python dict in insertion order. -/
abbrev Store := List (String × Entry)

/-- Model of `InMemoryBackend.add` (`vector_store.py:96`): Python
`self._store[id] = {...}` overwrites in place when the key exists and appends
otherwise. -/
def storeAdd (store : Store) (id : String) (e : Entry) : Store :=
  match store with
  | [] => [(id, e)]
  | (k, v) :: rest =>
      if k = id then (k, e) :: rest else (k, v) :: storeAdd rest id e

/-- Model of `InMemoryBackend.add_batch` (`vector_store.py:109`): `add` each
item in order. -/
def storeAddBatch (store : Store) (items : List (String × Entry)) : Store :=
  items.foldl (fun s it => storeAdd s it.1 it.2) store

/-- One search hit (`SearchResult` at `vector_store.py:31`). -/
structure SearchHit where
  id : String
  content : String
  score : ℚ
  metadata : Metadata
deriving DecidableEq, Repr

/-- Descending-score comparison handed to the sort in
`InMemoryBackend.search` (`results.sort(key=lambda x: x.score,
reverse=True)`, a stable sort). -/
def hitGE (x y : SearchHit) : Bool :=
  y.score ≤ x.score

/-- Model of `InMemoryBackend.search` (`vector_store.py:119`): score every
stored entry that passes the filter, sort the scored hits by score descending
(stable merge sort, like Python Timsort), then truncate to `topK`.  A `none`
filter, like a Python falsy (empty or absent) filter dict, disables
filtering; note `matchesFilter md [] = true`, matching Python. -/
def searchInMemory (store : Store) (query : List ℚ) (topK : Nat)
    (filter : Option Filter) : List SearchHit :=
  let hits := store.filterMap fun ke =>
    if (match filter with
        | none => true
        | some f => matchesFilter ke.2.metadata f) then
      some ⟨ke.1, ke.2.content, cosineSimilarity query ke.2.embedding,
        ke.2.metadata⟩
    else none
  (hits.mergeSort hitGE).take topK

/-! ## Search tool post-processing (`SearchTool._process_results`) -/

/-- One processed result (the dict built at `search.py:130`). -/
structure ProcessedHit where
  file_path : MetaVal
  content : String
  score : ℚ
  chunk_index : MetaVal
  language : MetaVal
deriving DecidableEq, Repr

/-- Descending-score comparison for `processed.sort(key=..., reverse=True)` at
`search.py:139`. -/
def procGE (x y : ProcessedHit) : Bool :=
  y.score ≤ x.score

/-- Model of `SearchTool._process_results` (`search.py:110`): drop every raw
hit whose score is below the configured threshold, reshape the survivors, and
sort them by score descending (stable). -/
def processResults (scoreThreshold : ℚ) (raw : List SearchHit) :
    List ProcessedHit :=
  let processed := raw.filterMap fun r =>
    if r.score < scoreThreshold then none
    else
      some ⟨(r.metadata.lookup "file_path").getD (.str "Unknown"),
        r.content, r.score,
        (r.metadata.lookup "chunk_index").getD (.nat 0),
        (r.metadata.lookup "language").getD (.str "")⟩
  processed.mergeSort procGE

/-! ## Chunker (`IndexingService._chunk_content`)

The chunker accumulates whole lines into a buffer, closes a chunk when the
next line would push the running character count (each line counted as
`len(line) + 1` for its newline) past `chunk_size` while the buffer is
non-empty, seeds the next buffer with a character-bounded suffix of the
closed chunk, and emits the final buffer as the last chunk. -/

/-- The chunk id `f"{repo_url}:{file_path}:{chunk_index}"` built at
`indexing_service.py:287`. -/
def mkChunkId (repoUrl filePath : String) (idx : Nat) : String :=
  repoUrl ++ ":" ++ filePath ++ ":" ++ toString idx

/-- Model of the `FileChunk` dataclass (`indexing_service.py:51`). -/
structure FileChunk where
  id : String
  content : String
  file_path : String
  chunk_index : Nat
  start_line : Nat
  end_line : Nat
  language : String
  repo_url : String
deriving DecidableEq, Repr

/-- Character budget of one buffered line: `len(line) + 1` for its newline
(`indexing_service.py:281`). -/
def lineSize (l : String) : Nat :=
  l.length + 1

/-- Backward walk of `IndexingService._get_overlap_lines`
(`indexing_service.py:333`): consume the reversed buffer, prepending lines to
`acc` while the accumulated size stays within `target`. -/
def overlapAux (target : Nat) : List String → Nat → List String → List String
  | [], _, acc => acc
  | l :: rest, size, acc =>
      if target < size + lineSize l then acc
      else overlapAux target rest (size + lineSize l) (l :: acc)

/-- Model of `IndexingService._get_overlap_lines` (`indexing_service.py:333`):
the longest suffix of `lines` whose total `lineSize` stays within
`targetOverlap`, taken greedily line by line from the end. -/
def getOverlapLines (lines : List String) (targetOverlap : Nat) : List String :=
  overlapAux targetOverlap lines.reverse 0 []

/-- Loop of `IndexingService._chunk_content` (`indexing_service.py:280`).
`rem` is the list of lines not yet consumed, `i` the 0-based index of the
next line, `cur` the running buffer (the lines `curStart ≤ · < i`),
`curSize` the running character count and `idx` the next chunk index;
`totalLines` is the full line count, used for the last chunk's end line. -/
def chunkAux (chunkSize overlap : Nat) (repoUrl filePath language : String)
    (totalLines : Nat) :
    List String → Nat → List String → Nat → Nat → Nat → List FileChunk
  | [], _i, cur, curStart, _curSize, idx =>
      if cur = [] then []
      else [⟨mkChunkId repoUrl filePath idx, joinLines cur, filePath, idx,
        curStart + 1, totalLines, language, repoUrl⟩]
  | line :: rest, i, cur, curStart, curSize, idx =>
      if chunkSize < curSize + lineSize line ∧ cur ≠ [] then
        let c : FileChunk := ⟨mkChunkId repoUrl filePath idx, joinLines cur,
          filePath, idx, curStart + 1, i, language, repoUrl⟩
        let ov := getOverlapLines cur overlap
        c :: chunkAux chunkSize overlap repoUrl filePath language totalLines
          rest (i + 1) (ov ++ [line]) (i - ov.length)
          ((ov.map lineSize).sum + lineSize line) (idx + 1)
      else
        chunkAux chunkSize overlap repoUrl filePath language totalLines
          rest (i + 1) (cur ++ [line]) curStart (curSize + lineSize line) idx

/-- Model of `IndexingService._chunk_content` (`indexing_service.py:260`). -/
def chunkContent (chunkSize overlap : Nat)
    (content repoUrl filePath language : String) : List FileChunk :=
  let lines := splitLines content
  chunkAux chunkSize overlap repoUrl filePath language lines.length
    lines 0 [] 0 0 0

/-- Content-level part of `IndexingService._process_file`
(`indexing_service.py:216`): content whose `strip()` is empty yields no
chunks (`if not content.strip(): return []`), otherwise the content is
chunked.  The file-size and unreadable-file guards concern the file system
and are outside this model. -/
def processContent (chunkSize overlap : Nat)
    (content repoUrl filePath language : String) : List FileChunk :=
  if isWhitespaceOnly content then []
  else chunkContent chunkSize overlap content repoUrl filePath language

/-! ## Embedding service (`EmbeddingService.embed_many`)

The MD5 content key of `_get_cache_key` is modelled by the text itself
(content-addressed, collisions ignored); the cache is a dict from key to
embedding.  `embed_many` first partitions the inputs into cache hits
(paired with their original index) and misses, then sends the misses to the
provider in sub-batches bounded by `batch_size`, then sorts all
`(index, embedding)` pairs by index and returns the embeddings. -/

/-- An embedding vector. -/
abbrev Embedding := List ℚ

/-- The embedding cache: a dict keyed by the (content-addressed) cache key,
in insertion order. -/
abbrev EmbCache := List (String × Embedding)

/-- Dict write `cache[key] = value`: overwrite in place or append. -/
def cacheSet (cache : EmbCache) (k : String) (v : Embedding) : EmbCache :=
  match cache with
  | [] => [(k, v)]
  | (k₀, v₀) :: rest =>
      if k₀ = k then (k₀, v) :: rest else (k₀, v₀) :: cacheSet rest k v

/-- First pass of `embed_many` (`embedding_service.py:168`): walk the texts
with their indices, splitting into cached `(index, embedding)` results,
uncached texts and uncached indices, all in input order. -/
def partitionCached (cache : EmbCache) :
    List String → Nat → List (Nat × Embedding) × List String × List Nat
  | [], _ => ([], [], [])
  | t :: rest, i =>
      let prev := partitionCached cache rest (i + 1)
      match cache.lookup t with
      | some e => ((i, e) :: prev.1, prev.2.1, prev.2.2)
      | none => (prev.1, t :: prev.2.1, i :: prev.2.2)

/-- Second pass of `embed_many` (`embedding_service.py:180`): cut the
uncached texts and indices into sub-batches of `batchSize`, embed each
sub-batch with the provider (`embed_batch`, modelled as `List.map model`),
and collect both the `(index, embedding)` results and the cache writes in
order.  Python raises on a zero step, so the model clamps the batch size to
at least 1. -/
def embedBatchesAux (model : String → Embedding) (batchSize : Nat)
    (idxs : List Nat) (txts : List String) :
    List (Nat × Embedding) × List (String × Embedding) :=
  match txts with
  | [] => ([], [])
  | t :: ts =>
      let n := max 1 batchSize
      let batch := (t :: ts).take n
      let embs := batch.map model
      let rest := embedBatchesAux model batchSize (idxs.drop n) ((t :: ts).drop n)
      (List.zip (idxs.take n) embs ++ rest.1, List.zip batch embs ++ rest.2)
termination_by txts.length
decreasing_by
  simp only [List.length_drop, List.length_cons]
  omega

/-- The texts `embed_many` sends to the underlying model: exactly the
uncached texts of the first pass, duplicates included (the cache is only
consulted, never updated, during the first pass). -/
def embedManyModelTexts (cache : EmbCache) (texts : List String) :
    List String :=
  (partitionCached cache texts 0).2.1

/-- Model of `EmbeddingService.embed_many` (`embedding_service.py:153`):
returns the embeddings sorted back into input order together with the
updated cache. -/
def embedMany (cache : EmbCache) (model : String → Embedding)
    (batchSize : Nat) (texts : List String) : List Embedding × EmbCache :=
  let p := partitionCached cache texts 0
  let b := embedBatchesAux model batchSize p.2.2 p.2.1
  let sorted := (p.1 ++ b.1).mergeSort fun x y => x.1 ≤ y.1
  (sorted.map Prod.snd, b.2.foldl (fun c te => cacheSet c te.1 te.2) cache)

/-! ## Repository clone (`RepoService._clone_repo`)

The clone step removes a pre-existing target directory, spawns the fetch
tool once, and maps its outcome: success returns, a timeout raises
`TimeoutError`, a non-zero exit raises `RuntimeError`.  There is no loop in
the source: the outcome of the single attempt is final. -/

/-- Outcome of one invocation of the external fetch tool. -/
inductive FetchOutcome where
  | success
  | exitNonzero (msg : String)
  | timedOut
deriving DecidableEq, Repr

/-- Model of `RepoService._clone_repo` (`repo_service.py:150`).  `fetch k` is
the outcome the fetch tool would produce on its `k`-th invocation; the
returned triple is the result, the number of fetch invocations made, and
whether a pre-existing target directory was removed. -/
def cloneRepo (targetExists : Bool) (timeoutSeconds : Nat)
    (fetch : Nat → FetchOutcome) : Except String Unit × Nat × Bool :=
  let result : Except String Unit :=
    match fetch 0 with
    | .success => .ok ()
    | .timedOut =>
        .error ("Clone timed out after " ++ toString timeoutSeconds ++ "s")
    | .exitNonzero msg => .error ("Git clone failed: " ++ msg)
  (result, 1, targetExists)

/-! ## Indexing pipeline (`IndexingService`)

The pipeline is modelled against an environment supplying the outcome of
repository resolution, the collected file list, the per-file processing
outcome, the embedding vectors, and which `embed_many` calls succeed.  The
state carries the vector store, the keys of the `_indexed_repos` dict and a
counter of `embed_many` calls (so that transient embedding failures can be
expressed). -/

/-- Model of the `IndexingResult` dataclass (`indexing_service.py:38`); the
wall-clock `duration_seconds` field is outside this model. -/
structure IndexingResult where
  success : Bool
  repo_url : String
  total_files : Nat
  indexed_files : Nat
  total_chunks : Nat
  skipped_files : Nat
  errors : List String
deriving DecidableEq, Repr

/-- Environment of one `index_repository` run. `cloneResult` is the outcome
of `repo_service.clone` combined with the `local_path` check
(`indexing_service.py:136`); `processFile` is the outcome of
`_process_file` (`.ok []` means the file is skipped, `.error` a recorded
per-file failure); `embedOk k` tells whether the `k`-th `embed_many` call
succeeds (`EmbeddingFailed` otherwise); `embedVec` gives the embedding of a
chunk content when embedding succeeds. -/
structure PipelineEnv where
  cloneResult : Except String Unit
  files : List String
  processFile : String → Except String (List FileChunk)
  embedOk : Nat → Bool
  embedVec : String → Embedding

/-- Mutable state of the indexing service and its vector store. -/
structure IndexState where
  store : Store
  indexedRepos : List String
  embedCalls : Nat
deriving DecidableEq, Repr

/-- The metadata dict built for a chunk in `IndexingService._index_batch`
(`indexing_service.py:373`). -/
def chunkMetadata (c : FileChunk) : Metadata :=
  [("file_path", .str c.file_path), ("chunk_index", .nat c.chunk_index),
   ("start_line", .nat c.start_line), ("end_line", .nat c.end_line),
   ("language", .str c.language), ("repo_url", .str c.repo_url)]

/-- The store item built for a chunk in `_index_batch`. -/
def chunkItem (env : PipelineEnv) (c : FileChunk) : String × Entry :=
  (c.id, ⟨env.embedVec c.content, c.content, chunkMetadata c⟩)

/-- Model of `IndexingService._index_batch` (`indexing_service.py:351`):
empty batches return immediately; otherwise one `embed_many` call is made
(counted in `embedCalls`), and on success the items are upserted into the
store via `add_batch`. -/
def indexBatch (env : PipelineEnv) (st : IndexState)
    (chunks : List FileChunk) : Except String Unit × IndexState :=
  if chunks = [] then (.ok (), st)
  else if env.embedOk st.embedCalls then
    (.ok (), { st with
      store := storeAddBatch st.store (chunks.map (chunkItem env)),
      embedCalls := st.embedCalls + 1 })
  else
    (.error "embedding failed", { st with embedCalls := st.embedCalls + 1 })

/-- Per-run accumulators of the file loop in `index_repository`
(`indexing_service.py:146`). -/
structure LoopAcc where
  batch : List FileChunk
  errors : List String
  indexedFiles : Nat
  skippedFiles : Nat
  totalChunks : Nat
deriving Repr

/-- The file loop of `index_repository` (`indexing_service.py:152`): each
file is processed inside a per-file `try`; empty chunk lists count as
skipped; full batches are flushed through `_index_batch`, and a failure of
that flush is caught by the same per-file handler (error recorded, file
counted as skipped, batch left as is). -/
def processLoop (env : PipelineEnv) (batchSize : Nat) :
    List String → IndexState → LoopAcc → IndexState × LoopAcc
  | [], st, acc => (st, acc)
  | f :: rest, st, acc =>
      match env.processFile f with
      | .error e =>
          processLoop env batchSize rest st { acc with
            errors := acc.errors ++ [f ++ ": " ++ e],
            skippedFiles := acc.skippedFiles + 1 }
      | .ok [] =>
          processLoop env batchSize rest st { acc with
            skippedFiles := acc.skippedFiles + 1 }
      | .ok (c :: cs) =>
          let acc₁ : LoopAcc := { acc with
            batch := acc.batch ++ (c :: cs),
            indexedFiles := acc.indexedFiles + 1,
            totalChunks := acc.totalChunks + (c :: cs).length }
          if batchSize ≤ acc₁.batch.length then
            match indexBatch env st acc₁.batch with
            | (.ok _, st₁) =>
                processLoop env batchSize rest st₁ { acc₁ with batch := [] }
            | (.error e, st₁) =>
                processLoop env batchSize rest st₁ { acc₁ with
                  errors := acc₁.errors ++ [f ++ ": " ++ e],
                  skippedFiles := acc₁.skippedFiles + 1 }
          else
            processLoop env batchSize rest st acc₁

/-- Dict-key insertion for `self._indexed_repos[repo_url] = ...`
(`indexing_service.py:183`): append the key if absent, keep its position if
present. -/
def keyAdd (l : List String) (k : String) : List String :=
  if k ∈ l then l else l ++ [k]

/-- Model of `IndexingService.index_repository` (`indexing_service.py:103`):
fast path when already indexed and not forced; abort with `success=False`
and `errors=[str(e)]` when resolution or the final batch flush fails; on
success mark the repository indexed. -/
def indexRepository (env : PipelineEnv) (batchSize : Nat) (repoUrl : String)
    (force : Bool) (st : IndexState) : IndexingResult × IndexState :=
  if force = false ∧ repoUrl ∈ st.indexedRepos then
    (⟨true, repoUrl, 0, 0, 0, 0,
      ["Already indexed (use force=True to re-index)"]⟩, st)
  else
    match env.cloneResult with
    | .error e => (⟨false, repoUrl, 0, 0, 0, 0, [e]⟩, st)
    | .ok _ =>
        let r := processLoop env batchSize env.files st ⟨[], [], 0, 0, 0⟩
        match indexBatch env r.1 r.2.batch with
        | (.ok _, st₂) =>
            (⟨true, repoUrl, env.files.length, r.2.indexedFiles,
              r.2.totalChunks, r.2.skippedFiles, r.2.errors⟩,
             { st₂ with indexedRepos := keyAdd st₂.indexedRepos repoUrl })
        | (.error e, st₂) =>
            (⟨false, repoUrl, 0, 0, 0, 0, [e]⟩, st₂)

/-- Model of `IndexingService.is_indexed` (`indexing_service.py:386`). -/
def isIndexed (st : IndexState) (repoUrl : String) : Bool :=
  repoUrl ∈ st.indexedRepos

/-- Model of `VectorStore.delete_by_repo` (`vector_store.py:376`): the body
is `pass`, so the store is returned unchanged. -/
def deleteByRepo (_repoUrl : String) (store : Store) : Store :=
  store

/-- Model of `IndexingService.clear_index` (`indexing_service.py:390`):
remove the repository's `_indexed_repos` entry and call `delete_by_repo`,
returning `True`; return `False` when the repository was not indexed. -/
def clearIndex (repoUrl : String) (st : IndexState) : Bool × IndexState :=
  if repoUrl ∈ st.indexedRepos then
    (true, { st with
      indexedRepos := st.indexedRepos.erase repoUrl,
      store := deleteByRepo repoUrl st.store })
  else (false, st)

/-! ## Theorems -/

/-- C10: the in-memory backend's cosine similarity is total on degenerate
vectors: whenever either argument has zero norm — in particular for a zero
vector `replicate n 0` or an empty list — it returns `0` instead of dividing
by zero, so search never fails on degenerate query or stored vectors. -/
theorem c10_cosine_zero_norm_guard (a b : List ℚ) (n : Nat) :
    ((normSq a = 0 ∨ normSq b = 0) → cosineSimilarity a b = 0)
    ∧ cosineSimilarity (List.replicate n 0) b = 0
    ∧ cosineSimilarity a [] = 0 := by
  have hrep : normSq (List.replicate n (0 : ℚ)) = 0 := by
    simp [normSq, List.map_replicate, List.sum_replicate]
  have hnil : normSq ([] : List ℚ) = 0 := by simp [normSq]
  refine ⟨fun h => ?_, ?_, ?_⟩
  · simp [cosineSimilarity, if_pos h]
  · simp [cosineSimilarity, if_pos (Or.inl hrep)]
  · simp [cosineSimilarity, if_pos (Or.inr hnil)]

/-- Witness for C10 at a concrete degenerate input. -/
theorem c10_witness :
    (normSq [(0 : ℚ)] = 0 ∨ normSq [(1 : ℚ)] = 0)
    ∧ cosineSimilarity [(0 : ℚ)] [(1 : ℚ)] = 0 := by
  have h : normSq [(0 : ℚ)] = 0 := by norm_num [normSq]
  exact ⟨Or.inl h, (c10_cosine_zero_norm_guard [0] [1] 0).1 (Or.inl h)⟩

/-- C7 counterexample: the claim says a failed fetch is retried (up to 3
attempts) and becomes fatal only after the retries are exhausted.  In the
code a single failing attempt is immediately fatal: with a fetch tool whose
first invocation exits non-zero but whose second invocation would succeed,
`_clone_repo` makes exactly one invocation — not 3 — and fails. -/
theorem c7_counterexample :
    (cloneRepo false 300
        (fun k => if k = 0 then .exitNonzero "boom" else .success)).1
      = .error "Git clone failed: boom"
    ∧ (cloneRepo false 300
        (fun k => if k = 0 then .exitNonzero "boom" else .success)).2.1 = 1
    ∧ (fun k => if k = 0 then FetchOutcome.exitNonzero "boom"
        else FetchOutcome.success) 1 = .success
    ∧ (1 : Nat) ≠ 3 := by
  refine ⟨rfl, rfl, rfl, by decide⟩

/-- C7 as amended: `_clone_repo` makes exactly one fetch attempt, with no
retry and no backoff; a pre-existing target directory is removed before that
single attempt; the attempt succeeds iff the fetch tool's first invocation
succeeds, and a timeout or non-zero exit is immediately fatal. -/
theorem c7_single_clone_attempt (targetExists : Bool) (timeoutSeconds : Nat)
    (fetch : Nat → FetchOutcome) :
    (cloneRepo targetExists timeoutSeconds fetch).2.1 = 1
    ∧ ((cloneRepo targetExists timeoutSeconds fetch).1 = .ok ()
        ↔ fetch 0 = .success)
    ∧ (cloneRepo targetExists timeoutSeconds fetch).2.2 = targetExists := by
  refine ⟨rfl, ?_, rfl⟩
  unfold cloneRepo
  cases h : fetch 0 <;> simp [h]

/-- C8: `clear_index` on an indexed repository returns `True` and removes the
index record, but the repository's chunks are NOT deleted from the vector
store, because `VectorStore.delete_by_repo` is a `pass` stub; a
never-indexed repository returns `False` unchanged.  Evaluated at a concrete
indexed repository with one stored chunk. -/
theorem c8_clear_index_leaves_chunks :
    (clearIndex "u" ⟨[("u:f:0", ⟨[], "c", []⟩)], ["u"], 0⟩).1 = true
    ∧ isIndexed (clearIndex "u" ⟨[("u:f:0", ⟨[], "c", []⟩)], ["u"], 0⟩).2 "u"
        = false
    ∧ (clearIndex "u" ⟨[("u:f:0", ⟨[], "c", []⟩)], ["u"], 0⟩).2.store
        = [("u:f:0", ⟨[], "c", []⟩)]
    ∧ clearIndex "v" ⟨[("u:f:0", ⟨[], "c", []⟩)], ["u"], 0⟩
        = (false, ⟨[("u:f:0", ⟨[], "c", []⟩)], ["u"], 0⟩) := by
  refine ⟨by decide, by decide, by decide, by decide⟩

/-! ### Sorting helper lemmas -/

theorem procGE_trans (a b c : ProcessedHit) (h₁ : procGE a b = true)
    (h₂ : procGE b c = true) : procGE a c = true := by
  simp only [procGE, decide_eq_true_eq] at h₁ h₂ ⊢
  exact le_trans h₂ h₁

theorem procGE_total (a b : ProcessedHit) :
    (procGE a b || procGE b a) = true := by
  simp only [procGE, Bool.or_eq_true, decide_eq_true_eq]
  exact le_total b.score a.score

theorem hitGE_trans (a b c : SearchHit) (h₁ : hitGE a b = true)
    (h₂ : hitGE b c = true) : hitGE a c = true := by
  simp only [hitGE, decide_eq_true_eq] at h₁ h₂ ⊢
  exact le_trans h₂ h₁

theorem hitGE_total (a b : SearchHit) :
    (hitGE a b || hitGE b a) = true := by
  simp only [hitGE, Bool.or_eq_true, decide_eq_true_eq]
  exact le_total b.score a.score

theorem filterMap_if_eq_map_filter {α β : Type} (p : α → Bool) (f : α → β) :
    ∀ l : List α,
      (l.filterMap fun a => if p a then some (f a) else none)
        = (l.filter p).map f := by
  intro l
  induction l with
  | nil => rfl
  | cons a l ih =>
      by_cases h : p a = true <;>
        simp [List.filterMap_cons, List.filter_cons, h, ih]

/-- C2: the search tool's result post-processing never returns a hit whose
score is strictly below the configured threshold; every raw hit at or above
the threshold survives (the output is a permutation of exactly the formatted
surviving hits, so dropping happens before returning, not by truncation);
and the surviving hits are returned sorted by score descending. -/
theorem c2_score_threshold (t : ℚ) (raw : List SearchHit) :
    (∀ r ∈ processResults t raw, t ≤ r.score)
    ∧ List.Sorted (fun x y : ProcessedHit => y.score ≤ x.score)
        (processResults t raw)
    ∧ (processResults t raw).Perm
        (raw.filterMap fun r =>
          if r.score < t then none
          else
            some ⟨(r.metadata.lookup "file_path").getD (.str "Unknown"),
              r.content, r.score,
              (r.metadata.lookup "chunk_index").getD (.nat 0),
              (r.metadata.lookup "language").getD (.str "")⟩) := by
  have hperm := List.mergeSort_perm
    (raw.filterMap fun r =>
      if r.score < t then none
      else
        some ⟨(r.metadata.lookup "file_path").getD (.str "Unknown"),
          r.content, r.score,
          (r.metadata.lookup "chunk_index").getD (.nat 0),
          (r.metadata.lookup "language").getD (.str "")⟩) procGE
  refine ⟨?_, ?_, hperm⟩
  · intro r hr
    have hr₂ := hperm.mem_iff.mp hr
    obtain ⟨a, _, ha⟩ := List.mem_filterMap.mp hr₂
    by_cases h : a.score < t
    · simp [h] at ha
    · simp only [h, if_neg, if_false] at ha
      have : r.score = a.score := by
        cases ha
        rfl
      rw [this]
      exact le_of_not_lt h
  · have hs := List.sorted_mergeSort procGE_trans procGE_total
      (raw.filterMap fun r =>
        if r.score < t then none
        else
          some ⟨(r.metadata.lookup "file_path").getD (.str "Unknown"),
            r.content, r.score,
            (r.metadata.lookup "chunk_index").getD (.nat 0),
            (r.metadata.lookup "language").getD (.str "")⟩)
    exact hs.imp fun h => by
      simpa only [procGE, decide_eq_true_eq] using h

/-- The candidate hits of an in-memory search: the stored entries passing the
filter, scored against the query.  `searchInMemory` sorts these and truncates
to `topK`. -/
def searchHits (store : Store) (query : List ℚ) (f : Filter) :
    List SearchHit :=
  store.filterMap fun ke =>
    if matchesFilter ke.2.metadata f then
      some ⟨ke.1, ke.2.content, cosineSimilarity query ke.2.embedding,
        ke.2.metadata⟩
    else none

theorem searchInMemory_eq_hits (store : Store) (query : List ℚ) (topK : Nat)
    (f : Filter) :
    searchInMemory store query topK (some f)
      = ((searchHits store query f).mergeSort hitGE).take topK := rfl

theorem searchHits_eq_map_filter (store : Store) (query : List ℚ)
    (f : Filter) :
    searchHits store query f
      = ((store.filter fun ke => matchesFilter ke.2.metadata f).map
          fun ke => ⟨ke.1, ke.2.content,
            cosineSimilarity query ke.2.embedding, ke.2.metadata⟩) :=
  filterMap_if_eq_map_filter _ _ store

/-- C3: for every stored collection, query, `topK` and filter, the in-memory
backend's search returns at most `topK` results, sorted by similarity score
descending, containing only entries whose metadata passes the filter; and
the filter is applied before ranking and truncation: whenever at most `topK`
stored entries match the filter, every matching entry appears in the
results (none is lost to truncation by non-matching entries). -/
theorem c3_search_filter_rank_truncate (store : Store) (query : List ℚ)
    (topK : Nat) (f : Filter) :
    (searchInMemory store query topK (some f)).length ≤ topK
    ∧ List.Sorted (fun x y : SearchHit => y.score ≤ x.score)
        (searchInMemory store query topK (some f))
    ∧ (∀ r ∈ searchInMemory store query topK (some f),
        matchesFilter r.metadata f = true)
    ∧ ((store.filter fun ke => matchesFilter ke.2.metadata f).length ≤ topK →
        ∀ ke ∈ store, matchesFilter ke.2.metadata f = true →
          ∃ r ∈ searchInMemory store query topK (some f),
            r.id = ke.1 ∧ r.content = ke.2.content
            ∧ r.metadata = ke.2.metadata) := by
  have hperm := List.mergeSort_perm (searchHits store query f) hitGE
  refine ⟨?_, ?_, ?_, ?_⟩
  · rw [searchInMemory_eq_hits]
    exact List.length_take_le _ _
  · rw [searchInMemory_eq_hits]
    have hs := List.sorted_mergeSort hitGE_trans hitGE_total
      (searchHits store query f)
    have hs₂ := hs.sublist (List.take_sublist topK _)
    exact hs₂.imp fun h => by
      simpa only [hitGE, decide_eq_true_eq] using h
  · intro r hr
    rw [searchInMemory_eq_hits] at hr
    have hr₂ := hperm.mem_iff.mp (List.take_subset _ _ hr)
    obtain ⟨ke, _, hke⟩ := List.mem_filterMap.mp hr₂
    by_cases h : matchesFilter ke.2.metadata f = true
    · simp only [h, if_true, if_pos] at hke
      cases hke
      exact h
    · simp [h] at hke
  · intro hlen ke hke hmatch
    have hmem : (⟨ke.1, ke.2.content, cosineSimilarity query ke.2.embedding,
        ke.2.metadata⟩ : SearchHit) ∈ searchHits store query f := by
      exact List.mem_filterMap.mpr ⟨ke, hke, by simp [hmatch]⟩
    have hlen₂ : ((searchHits store query f).mergeSort hitGE).length ≤ topK := by
      rw [hperm.length_eq, searchHits_eq_map_filter, List.length_map]
      exact hlen
    have htake : ((searchHits store query f).mergeSort hitGE).take topK
        = (searchHits store query f).mergeSort hitGE :=
      List.take_of_length_le hlen₂
    refine ⟨⟨ke.1, ke.2.content, cosineSimilarity query ke.2.embedding,
      ke.2.metadata⟩, ?_, rfl, rfl, rfl⟩
    rw [searchInMemory_eq_hits, htake]
    exact hperm.mem_iff.mpr hmem

/-- Witness for C3 at a concrete two-entry store where exactly one entry
matches the filter and `topK = 1`. -/
theorem c3_witness :
    ((([("a", ⟨[], "ca", [("k", .str "v")]⟩),
        ("b", ⟨[], "cb", []⟩)] : Store).filter
        fun ke => matchesFilter ke.2.metadata [("k", .eqVal (.str "v"))]).length
      ≤ 1)
    ∧ ∃ r ∈ searchInMemory
        [("a", ⟨[], "ca", [("k", .str "v")]⟩), ("b", ⟨[], "cb", []⟩)] [] 1
        (some [("k", .eqVal (.str "v"))]),
        r.id = "a" ∧ r.content = "ca" ∧ r.metadata = [("k", .str "v")] := by
  refine ⟨by decide, ?_⟩
  exact (c3_search_filter_rank_truncate
    [("a", ⟨[], "ca", [("k", .str "v")]⟩), ("b", ⟨[], "cb", []⟩)] [] 1
    [("k", .eqVal (.str "v"))]).2.2.2 (by decide)
    ("a", ⟨[], "ca", [("k", .str "v")]⟩) (by simp) (by decide)

/-! ### Chunker helper lemmas -/

theorem splitLinesAux_ne_nil (rest : List Char) :
    ∀ acc, splitLinesAux rest acc ≠ [] := by
  induction rest with
  | nil => intro acc; simp [splitLinesAux]
  | cons c r ih =>
      intro acc
      by_cases h : c = '\n' <;> simp [splitLinesAux, h, ih]

theorem splitLines_ne_nil (s : String) : splitLines s ≠ [] :=
  splitLinesAux_ne_nil s.data []

theorem sum_lineSize_splitLinesAux (rest : List Char) :
    ∀ acc, ((splitLinesAux rest acc).map lineSize).sum
      = acc.length + rest.length + 1 := by
  induction rest with
  | nil =>
      intro acc
      simp [splitLinesAux, lineSize, String.length]
  | cons c r ih =>
      intro acc
      by_cases h : c = '\n'
      · simp only [splitLinesAux, h, if_pos, List.map_cons, List.sum_cons,
          ih []]
        simp [lineSize, String.length]
        omega
      · simp only [splitLinesAux, h, if_neg, ite_false, ih (c :: acc),
          List.length_cons, List.length]
        omega

theorem sum_lineSize_splitLines (s : String) :
    ((splitLines s).map lineSize).sum = s.length + 1 := by
  have h := sum_lineSize_splitLinesAux s.data []
  simp only [List.length_nil, Nat.zero_add] at h
  exact h

theorem joinLines_splitLinesAux (rest : List Char) :
    ∀ acc, (joinLines (splitLinesAux rest acc)).data = acc.reverse ++ rest := by
  induction rest with
  | nil => intro acc; simp [splitLinesAux, joinLines]
  | cons c r ih =>
      intro acc
      by_cases h : c = '\n'
      · obtain ⟨s₂, t, hl⟩ :=
          List.exists_cons_of_ne_nil (splitLinesAux_ne_nil r [])
        simp only [splitLinesAux, h, if_pos, hl, joinLines]
        have ih₂ := ih []
        rw [hl] at ih₂
        simp only [String.data_append, ih₂]
        simp [h]
      · simp only [splitLinesAux, h, if_neg, ite_false, ih (c :: acc),
          List.reverse_cons, List.append_assoc]
        rfl

theorem joinLines_splitLines (s : String) : joinLines (splitLines s) = s := by
  apply String.ext
  simpa [splitLines] using joinLines_splitLinesAux s.data []

theorem chunkAux_no_split (cs ov : Nat) (url path lang : String)
    (total : Nat) :
    ∀ (rem cur : List String) (i curStart curSize idx : Nat),
      curSize + (rem.map lineSize).sum ≤ cs →
      chunkAux cs ov url path lang total rem i cur curStart curSize idx =
        if cur ++ rem = [] then []
        else [⟨mkChunkId url path idx, joinLines (cur ++ rem), path, idx,
          curStart + 1, total, lang, url⟩] := by
  intro rem
  induction rem with
  | nil =>
      intro cur i curStart curSize idx _h
      simp [chunkAux]
  | cons line rest ih =>
      intro cur i curStart curSize idx h
      have hsum : lineSize line + (rest.map lineSize).sum
          = ((line :: rest).map lineSize).sum := by simp
      have hle : ¬ cs < curSize + lineSize line := by
        simp only [List.map_cons, List.sum_cons] at h
        omega
      simp only [chunkAux, hle, false_and, if_neg, not_false_iff, ite_false]
      rw [ih (cur ++ [line]) (i + 1) curStart (curSize + lineSize line) idx
        (by simp only [List.map_cons, List.sum_cons] at h ⊢; omega)]
      simp

/-- C5 counterexample: the claim says non-empty content whose character count
does not exceed `chunk_size` yields exactly one chunk, and that empty content
yields zero chunks.  Both halves fail on the code as stated: the whitespace
content `" "` is non-empty with length `1 ≤ 5` yet yields zero chunks (the
`content.strip()` guard of `_process_file` rejects it), and `"abc\nd"` has
length exactly `5 = chunk_size` yet yields two chunks (the running size
counts a newline per line, so the second line triggers a split). -/
theorem c5_counterexample :
    (" " : String) ≠ "" ∧ (" " : String).length ≤ 5
    ∧ processContent 5 0 " " "u" "f" "l" = []
    ∧ ("abc\nd" : String) ≠ "" ∧ ("abc\nd" : String).length ≤ 5
    ∧ (processContent 5 0 "abc\nd" "u" "f" "l").length = 2 := by
  refine ⟨by decide, by decide, by decide, by decide, by decide, by decide⟩

/-- C5 as amended: content that is empty or whitespace-only yields zero
chunks (the pipeline's `content.strip()` guard skips it before the chunker),
and content containing a non-whitespace character whose character count is
STRICTLY below the configured `chunk_size` yields exactly one chunk, with
chunk index 0, spanning line 1 through the last line and carrying the whole
content, with no overlap applied. -/
theorem c5_small_content_single_chunk (cs ov : Nat)
    (content url path lang : String) :
    (isWhitespaceOnly content = true →
      processContent cs ov content url path lang = [])
    ∧ (isWhitespaceOnly content = false → content.length < cs →
      processContent cs ov content url path lang =
        [⟨mkChunkId url path 0, content, path, 0, 1,
          (splitLines content).length, lang, url⟩]) := by
  constructor
  · intro h
    simp [processContent, h]
  · intro hws hlen
    have hsum : 0 + ((splitLines content).map lineSize).sum ≤ cs := by
      rw [sum_lineSize_splitLines]
      omega
    have h := chunkAux_no_split cs ov url path lang
      (splitLines content).length (splitLines content) [] 0 0 0 0 hsum
    simp only [List.nil_append] at h
    rw [processContent, if_neg (by simp [hws]), chunkContent, h,
      if_neg (splitLines_ne_nil content), joinLines_splitLines]

/-- Witness for C5 (amended) at a concrete small content. -/
theorem c5_witness :
    isWhitespaceOnly "ab" = false ∧ ("ab" : String).length < 5
    ∧ processContent 5 0 "ab" "u" "f" "l" =
        [⟨mkChunkId "u" "f" 0, "ab", "f", 0, 1,
          (splitLines "ab").length, "l", "u"⟩] :=
  ⟨by decide, by decide,
    (c5_small_content_single_chunk 5 0 "ab" "u" "f" "l").2 (by decide)
      (by decide)⟩

theorem overlapAux_suffix (t : Nat) :
    ∀ (rl : List String) (size : Nat) (acc : List String),
      ∃ m, m ≤ rl.length ∧ overlapAux t rl size acc
        = rl.reverse.drop m ++ acc := by
  intro rl
  induction rl with
  | nil =>
      intro size acc
      exact ⟨0, Nat.le_refl 0, by simp [overlapAux]⟩
  | cons l rest ih =>
      intro size acc
      by_cases h : t < size + lineSize l
      · refine ⟨(l :: rest).length, Nat.le_refl _, ?_⟩
        have hnil : (l :: rest).reverse.drop ((l :: rest).length) = [] := by
          apply List.drop_eq_nil_of_le
          simp
        simp [overlapAux, h, hnil]
      · obtain ⟨m, hm, heq⟩ := ih (size + lineSize l) (l :: acc)
        refine ⟨m, Nat.le_succ_of_le hm, ?_⟩
        rw [overlapAux, if_neg h, heq, List.reverse_cons,
          List.drop_append_of_le_length (by simpa using hm)]
        simp

theorem getOverlapLines_suffix (lines : List String) (t : Nat) :
    ∃ m, m ≤ lines.length ∧ getOverlapLines lines t = lines.drop m := by
  obtain ⟨m, hm, h⟩ := overlapAux_suffix t lines.reverse 0 []
  refine ⟨m, by simpa using hm, ?_⟩
  simpa [getOverlapLines, List.reverse_reverse] using h

theorem chunkAux_cover (cs ov : Nat) (url path lang : String)
    (lines : List String) :
    ∀ (rem cur : List String) (i curStart curSize idx : Nat),
      curStart + cur.length = i →
      lines.drop curStart = cur ++ rem →
      rem = lines.drop i →
      (∀ j, curStart + 1 ≤ j → j ≤ lines.length →
        ∃ c ∈ chunkAux cs ov url path lang lines.length rem i cur curStart
            curSize idx, c.start_line ≤ j ∧ j ≤ c.end_line)
      ∧ (∀ c ∈ chunkAux cs ov url path lang lines.length rem i cur curStart
            curSize idx,
          1 ≤ c.start_line ∧ c.start_line ≤ c.end_line
          ∧ c.end_line ≤ lines.length
          ∧ c.content = joinLines ((lines.drop (c.start_line - 1)).take
              (c.end_line + 1 - c.start_line))) := by
  intro rem
  induction rem with
  | nil =>
      intro cur i curStart curSize idx h1 h2 h3
      rw [List.append_nil] at h2
      by_cases hcur : cur = []
      · subst hcur
        have hcs : lines.length ≤ curStart := by
          rw [List.drop_eq_nil_iff] at h2
          exact h2
        constructor
        · intro j hj1 hj2
          omega
        · intro c hc
          simp [chunkAux] at hc
      · have hclen : cur.length = lines.length - curStart := by
          rw [← h2, List.length_drop]
        have hcs_lt : curStart < lines.length := by
          by_contra hle
          push_neg at hle
          have : lines.drop curStart = [] := List.drop_eq_nil_of_le hle
          rw [h2] at this
          exact hcur this
        have hout : chunkAux cs ov url path lang lines.length [] i cur
            curStart curSize idx
          = [⟨mkChunkId url path idx, joinLines cur, path, idx,
              curStart + 1, lines.length, lang, url⟩] := by
          rw [chunkAux, if_neg hcur]
        constructor
        · intro j hj1 hj2
          refine ⟨⟨mkChunkId url path idx, joinLines cur, path, idx,
            curStart + 1, lines.length, lang, url⟩, ?_, ?_, ?_⟩
          · rw [hout]; exact List.mem_singleton_self _
          · exact hj1
          · exact hj2
        · intro c hc
          rw [hout, List.mem_singleton] at hc
          subst hc
          dsimp only
          refine ⟨by omega, by omega, by omega, ?_⟩
          have e₁ : curStart + 1 - 1 = curStart := by omega
          have e₂ : lines.length + 1 - (curStart + 1) = cur.length := by
            omega
          rw [e₁, e₂, h2, List.take_length]
  | cons line rest ih =>
      intro cur i curStart curSize idx h1 h2 h3
      have hi : i < lines.length := by
        by_contra hle
        push_neg at hle
        have : lines.drop i = [] := List.drop_eq_nil_of_le hle
        rw [← h3] at this
        exact List.cons_ne_nil line rest this
      have hrest : rest = lines.drop (i + 1) := by
        have h := congrArg (List.drop 1) h3
        simpa [List.drop_drop] using h
      by_cases hsplit : cs < curSize + lineSize line ∧ cur ≠ []
      · obtain ⟨m, hm, hov⟩ := getOverlapLines_suffix cur ov
        have hcne : cur ≠ [] := hsplit.2
        have hclen : 1 ≤ cur.length := by
          cases cur with
          | nil => exact absurd rfl hcne
          | cons a l => simp
        have holen : (getOverlapLines cur ov).length = cur.length - m := by
          rw [hov, List.length_drop]
        have hieq : i - (getOverlapLines cur ov).length = curStart + m := by
          rw [holen]
          omega
        have inv1 : (i - (getOverlapLines cur ov).length)
            + (getOverlapLines cur ov ++ [line]).length = i + 1 := by
          rw [List.length_append, holen, List.length_singleton]
          omega
        have inv2 : lines.drop (i - (getOverlapLines cur ov).length)
            = (getOverlapLines cur ov ++ [line]) ++ rest := by
          have hd := congrArg (List.drop m) h2
          rw [List.drop_drop, List.drop_append_of_le_length hm] at hd
          rw [hieq, hd, hov]
          simp
        have ihs := ih (getOverlapLines cur ov ++ [line]) (i + 1)
          (i - (getOverlapLines cur ov).length)
          (((getOverlapLines cur ov).map lineSize).sum + lineSize line)
          (idx + 1) inv1 inv2 hrest
        have hout : chunkAux cs ov url path lang lines.length
            (line :: rest) i cur curStart curSize idx
          = ⟨mkChunkId url path idx, joinLines cur, path, idx,
              curStart + 1, i, lang, url⟩
            :: chunkAux cs ov url path lang lines.length rest (i + 1)
              (getOverlapLines cur ov ++ [line])
              (i - (getOverlapLines cur ov).length)
              (((getOverlapLines cur ov).map lineSize).sum + lineSize line)
              (idx + 1) := by
          rw [chunkAux, if_pos hsplit]
        constructor
        · intro j hj1 hj2
          rw [hout]
          by_cases hji : j ≤ i
          · exact ⟨⟨mkChunkId url path idx, joinLines cur, path, idx,
              curStart + 1, i, lang, url⟩, List.mem_cons_self _ _,
              hj1, hji⟩
          · obtain ⟨c, hc, hcs₁, hcs₂⟩ := ihs.1 j (by omega) hj2
            exact ⟨c, List.mem_cons_of_mem _ hc, hcs₁, hcs₂⟩
        · intro c hc
          rw [hout, List.mem_cons] at hc
          rcases hc with hc | hc
          · subst hc
            dsimp only
            refine ⟨by omega, by omega, by omega, ?_⟩
            have e₁ : curStart + 1 - 1 = curStart := by omega
            have e₂ : i + 1 - (curStart + 1) = cur.length := by omega
            rw [e₁, e₂, h2, List.take_left]
          · exact ihs.2 c hc
      · have inv1 : curStart + (cur ++ [line]).length = i + 1 := by
          rw [List.length_append]
          simpa using congrArg (· + 1) h1
        have inv2 : lines.drop curStart = (cur ++ [line]) ++ rest := by
          simpa [List.append_assoc] using h2
        have ihs := ih (cur ++ [line]) (i + 1) curStart
          (curSize + lineSize line) idx inv1 inv2 hrest
        have hout : chunkAux cs ov url path lang lines.length
            (line :: rest) i cur curStart curSize idx
          = chunkAux cs ov url path lang lines.length rest (i + 1)
              (cur ++ [line]) curStart (curSize + lineSize line) idx := by
          rw [chunkAux, if_neg hsplit]
        rw [hout]
        exact ihs

/-- C6: for every non-empty file content and every chunk-size/overlap
configuration, the 1-indexed inclusive `[start_line, end_line]` ranges of
the produced chunks jointly cover `1..totalLines` with no gaps, every
chunk's range stays within `1..totalLines`, and every chunk's text is the
join of exactly the whole lines of its range — no chunk contains a partial
line. -/
theorem c6_chunk_line_coverage (cs ov : Nat) (content url path lang : String)
    (_hne : content ≠ "") :
    (∀ j, 1 ≤ j → j ≤ (splitLines content).length →
      ∃ c ∈ chunkContent cs ov content url path lang,
        c.start_line ≤ j ∧ j ≤ c.end_line)
    ∧ (∀ c ∈ chunkContent cs ov content url path lang,
        1 ≤ c.start_line ∧ c.start_line ≤ c.end_line
        ∧ c.end_line ≤ (splitLines content).length
        ∧ c.content = joinLines
            (((splitLines content).drop (c.start_line - 1)).take
              (c.end_line + 1 - c.start_line))) := by
  have h := chunkAux_cover cs ov url path lang (splitLines content)
    (splitLines content) [] 0 0 0 0 (by simp) (by simp) (by simp)
  exact ⟨fun j hj1 hj2 => h.1 j (by omega) hj2, h.2⟩

/-- Witness for C6 at a concrete two-line content: line 2 is covered by some
chunk. -/
theorem c6_witness :
    ("a\nb" : String) ≠ ""
    ∧ ∃ c ∈ chunkContent 2 0 "a\nb" "u" "f" "l",
        c.start_line ≤ 2 ∧ 2 ≤ c.end_line :=
  ⟨by decide,
    (c6_chunk_line_coverage 2 0 "a\nb" "u" "f" "l" (by decide)).1 2
      (by decide) (by decide)⟩

/-! ### Embedding-service helper lemmas -/

theorem partitionCached_spec (cache : EmbCache) :
    ∀ (texts : List String) (i : Nat),
      (partitionCached cache texts i).2.1
          = texts.filter (fun t => (cache.lookup t).isNone)
      ∧ (partitionCached cache texts i).2.2.length
          = (partitionCached cache texts i).2.1.length := by
  intro texts
  induction texts with
  | nil => intro i; exact ⟨rfl, rfl⟩
  | cons t rest ih =>
      intro i
      cases h : cache.lookup t with
      | some e =>
          simpa [partitionCached, h, List.filter_cons] using ih (i + 1)
      | none =>
          have := ih (i + 1)
          simp [partitionCached, h, List.filter_cons, this.1, this.2]

theorem partitionCached_perm (cache : EmbCache) (model : String → Embedding) :
    ∀ (texts : List String) (i : Nat),
      ((partitionCached cache texts i).1
        ++ ((partitionCached cache texts i).2.2).zip
            (((partitionCached cache texts i).2.1).map model)).Perm
        ((texts.enumFrom i).map
          (fun jt => (jt.1, ((cache.lookup jt.2).getD (model jt.2))))) := by
  intro texts
  induction texts with
  | nil => intro i; simp [partitionCached]
  | cons t rest ih =>
      intro i
      cases h : cache.lookup t with
      | some e =>
          simp only [partitionCached, h, List.enumFrom, List.map_cons,
            List.cons_append, Option.getD_some]
          exact (ih (i + 1)).cons (i, e)
      | none =>
          simp only [partitionCached, h, List.enumFrom, List.map_cons,
            List.zip_cons_cons, Option.getD_none]
          exact List.perm_middle.trans ((ih (i + 1)).cons (i, model t))

theorem zip_take_drop {α β : Type} (n : Nat) (l₁ : List α) (l₂ : List β)
    (h : l₁.length = l₂.length) :
    l₁.zip l₂ = (l₁.take n).zip (l₂.take n) ++ (l₁.drop n).zip (l₂.drop n) := by
  conv_lhs => rw [← List.take_append_drop n l₁, ← List.take_append_drop n l₂]
  rw [List.zip_append (by simp [List.length_take, h])]

theorem embedBatchesAux_spec (model : String → Embedding) (bs : Nat) :
    ∀ (n : Nat) (idxs : List Nat) (txts : List String),
      txts.length ≤ n → idxs.length = txts.length →
      embedBatchesAux model bs idxs txts
        = (idxs.zip (txts.map model), txts.zip (txts.map model)) := by
  intro n
  induction n with
  | zero =>
      intro idxs txts hlen hlen₂
      have ht : txts = [] := List.eq_nil_of_length_eq_zero
        (Nat.le_antisymm hlen (Nat.zero_le _))
      subst ht
      have hi : idxs = [] := List.eq_nil_of_length_eq_zero hlen₂
      subst hi
      rw [embedBatchesAux]
      simp
  | succ n ihn =>
      intro idxs txts hlen hlen₂
      cases txts with
      | nil =>
          have hi : idxs = [] := List.eq_nil_of_length_eq_zero hlen₂
          subst hi
          rw [embedBatchesAux]
          simp
      | cons t ts =>
          have hone : 1 ≤ max 1 bs := Nat.le_max_left 1 bs
          rw [embedBatchesAux]
          rw [ihn (idxs.drop (max 1 bs)) ((t :: ts).drop (max 1 bs))
            (by simp only [List.length_drop, List.length_cons] at *; omega)
            (by simp only [List.length_drop, hlen₂])]
          have h₁ : idxs.zip ((t :: ts).map model)
              = (idxs.take (max 1 bs)).zip
                  (((t :: ts).take (max 1 bs)).map model)
                ++ (idxs.drop (max 1 bs)).zip
                  (((t :: ts).drop (max 1 bs)).map model) := by
            rw [zip_take_drop (max 1 bs) idxs ((t :: ts).map model)
              (by simp [hlen₂]), List.map_take, List.map_drop]
          have h₂ : (t :: ts).zip ((t :: ts).map model)
              = ((t :: ts).take (max 1 bs)).zip
                  (((t :: ts).take (max 1 bs)).map model)
                ++ ((t :: ts).drop (max 1 bs)).zip
                  (((t :: ts).drop (max 1 bs)).map model) := by
            rw [zip_take_drop (max 1 bs) (t :: ts) ((t :: ts).map model)
              (by simp), List.map_take, List.map_drop]
          rw [← h₁, ← h₂]

/-- C4 counterexample: with an initially empty cache, `embed_many([a, b, a])`
sends all three texts — `a` twice — to the underlying model, because the
first pass consults but never updates the cache, so the repeated `a` is not
deduplicated within the call.  The claim's "calls the underlying embedding
model exactly twice" is false: three texts are embedded by the model. -/
theorem c4_counterexample :
    embedManyModelTexts [] ["a", "b", "a"] = ["a", "b", "a"]
    ∧ (embedManyModelTexts [] ["a", "b", "a"]).length = 3
    ∧ (embedManyModelTexts [] ["a", "b", "a"]).length ≠ 2 := by
  refine ⟨by decide, by decide, by decide⟩

/-- C4 as amended: `embed_many` is order-preserving and cache-respecting but
does not deduplicate repeated texts within one call.  For every cache state,
model and input list, the returned embeddings are exactly the input texts in
input order, each mapped to its cached embedding when its key is in the
cache at call start and to the model's embedding otherwise; and the texts
sent to the underlying model are exactly the uncached inputs, duplicates
included. -/
theorem c4_embed_many_order_and_cache (cache : EmbCache)
    (model : String → Embedding) (bs : Nat) (texts : List String) :
    (embedMany cache model bs texts).1
      = texts.map (fun t => ((cache.lookup t).getD (model t)))
    ∧ embedManyModelTexts cache texts
      = texts.filter (fun t => (cache.lookup t).isNone) := by
  refine ⟨?_, (partitionCached_spec cache texts 0).1⟩
  have hlen := (partitionCached_spec cache texts 0).2
  have hflat := embedBatchesAux_spec model bs
    ((partitionCached cache texts 0).2.1.length)
    (partitionCached cache texts 0).2.2
    (partitionCached cache texts 0).2.1 (Nat.le_refl _) hlen
  have hperm := partitionCached_perm cache model texts 0
  have hall : ((partitionCached cache texts 0).1
      ++ (embedBatchesAux model bs (partitionCached cache texts 0).2.2
        (partitionCached cache texts 0).2.1).1).Perm
      ((texts.enumFrom 0).map
        (fun jt => (jt.1, ((cache.lookup jt.2).getD (model jt.2))))) := by
    rw [hflat]
    exact hperm
  have htrans : ∀ a b c : Nat × Embedding,
      (fun x y : Nat × Embedding => decide (x.1 ≤ y.1)) a b = true →
      (fun x y : Nat × Embedding => decide (x.1 ≤ y.1)) b c = true →
      (fun x y : Nat × Embedding => decide (x.1 ≤ y.1)) a c = true := by
    intro a b c h₁ h₂
    simp only [decide_eq_true_eq] at h₁ h₂ ⊢
    exact le_trans h₁ h₂
  have htotal : ∀ a b : Nat × Embedding,
      ((fun x y : Nat × Embedding => decide (x.1 ≤ y.1)) a b
        || (fun x y : Nat × Embedding => decide (x.1 ≤ y.1)) b a) = true := by
    intro a b
    simp only [Bool.or_eq_true, decide_eq_true_eq]
    exact Nat.le_total a.1 b.1
  have hsortperm : (((partitionCached cache texts 0).1
      ++ (embedBatchesAux model bs (partitionCached cache texts 0).2.2
        (partitionCached cache texts 0).2.1).1).mergeSort
          (fun x y => x.1 ≤ y.1)).Perm
      ((texts.enumFrom 0).map
        (fun jt => (jt.1, ((cache.lookup jt.2).getD (model jt.2))))) :=
    (List.mergeSort_perm _ _).trans hall
  have hkeys : (((texts.enumFrom 0).map
      (fun jt => (jt.1, ((cache.lookup jt.2).getD (model jt.2))))).map
        Prod.fst).Nodup := by
    rw [List.map_map]
    have he : (Prod.fst ∘ fun jt : Nat × String =>
        (jt.1, ((cache.lookup jt.2).getD (model jt.2)))) = Prod.fst := rfl
    rw [he, List.enumFrom_map_fst]
    exact List.nodup_range' 0 texts.length
  have htarget_sorted : List.Pairwise
      (fun p q : Nat × Embedding => p.1 < q.1)
      ((texts.enumFrom 0).map
        (fun jt => (jt.1, ((cache.lookup jt.2).getD (model jt.2))))) := by
    rw [List.pairwise_map]
    have h := List.pairwise_lt_range' 0 texts.length
    rw [← List.enumFrom_map_fst 0 texts, List.pairwise_map] at h
    exact h
  have hsort_le : List.Pairwise (fun p q : Nat × Embedding => p.1 ≤ q.1)
      (((partitionCached cache texts 0).1
        ++ (embedBatchesAux model bs (partitionCached cache texts 0).2.2
          (partitionCached cache texts 0).2.1).1).mergeSort
            (fun x y => x.1 ≤ y.1)) :=
    (List.sorted_mergeSort htrans htotal _).imp fun h => by
      simpa only [decide_eq_true_eq] using h
  have hnodup : ((((partitionCached cache texts 0).1
      ++ (embedBatchesAux model bs (partitionCached cache texts 0).2.2
        (partitionCached cache texts 0).2.1).1).mergeSort
          (fun x y => x.1 ≤ y.1)).map Prod.fst).Nodup :=
    ((hsortperm.map Prod.fst).nodup_iff).mpr hkeys
  have hsort_lt : List.Pairwise (fun p q : Nat × Embedding => p.1 < q.1)
      (((partitionCached cache texts 0).1
        ++ (embedBatchesAux model bs (partitionCached cache texts 0).2.2
          (partitionCached cache texts 0).2.1).1).mergeSort
            (fun x y => x.1 ≤ y.1)) := by
    have hne := (List.pairwise_map).mp hnodup
    exact (hsort_le.and hne).imp fun h => lt_of_le_of_ne h.1 h.2
  have heq : ((partitionCached cache texts 0).1
      ++ (embedBatchesAux model bs (partitionCached cache texts 0).2.2
        (partitionCached cache texts 0).2.1).1).mergeSort
          (fun x y => x.1 ≤ y.1)
      = (texts.enumFrom 0).map
          (fun jt => (jt.1, ((cache.lookup jt.2).getD (model jt.2)))) := by
    haveI : IsAntisymm (Nat × Embedding) (fun p q => p.1 < q.1) :=
      ⟨fun a b h₁ h₂ => absurd (h₁.trans h₂) (lt_irrefl _)⟩
    exact List.eq_of_perm_of_sorted hsortperm hsort_lt htarget_sorted
  show (((partitionCached cache texts 0).1
      ++ (embedBatchesAux model bs (partitionCached cache texts 0).2.2
        (partitionCached cache texts 0).2.1).1).mergeSort
          (fun x y => x.1 ≤ y.1)).map Prod.snd
    = texts.map (fun t => ((cache.lookup t).getD (model t)))
  rw [heq, List.map_map]
  conv_rhs => rw [← List.enumFrom_map_snd 0 texts, List.map_map]
  rfl

/-! ### Store and pipeline helper lemmas -/

theorem storeAdd_mem_keys (key : String) (e : Entry) (k : String) :
    ∀ s : Store,
      (k ∈ (storeAdd s key e).map Prod.fst ↔ k ∈ s.map Prod.fst ∨ k = key) := by
  intro s
  induction s with
  | nil => simp [storeAdd]
  | cons kv rest ih =>
      obtain ⟨k₀, v₀⟩ := kv
      by_cases h : k₀ = key
      · subst h
        have hs : storeAdd ((k₀, v₀) :: rest) k₀ e = (k₀, e) :: rest := by
          simp [storeAdd]
        rw [hs]
        simp only [List.map_cons, List.mem_cons]
        tauto
      · have hs : storeAdd ((k₀, v₀) :: rest) key e
            = (k₀, v₀) :: storeAdd rest key e := by
          simp [storeAdd, h]
        rw [hs]
        simp only [List.map_cons, List.mem_cons, ih]
        tauto

theorem storeAdd_keys_of_mem (key : String) (e : Entry) :
    ∀ s : Store, key ∈ s.map Prod.fst →
      (storeAdd s key e).map Prod.fst = s.map Prod.fst
      ∧ (storeAdd s key e).length = s.length := by
  intro s
  induction s with
  | nil => intro h; simp at h
  | cons kv rest ih =>
      intro h
      obtain ⟨k₀, v₀⟩ := kv
      by_cases hk : k₀ = key
      · subst hk
        simp [storeAdd]
      · have hmem : key ∈ rest.map Prod.fst := by
          simp only [List.map_cons, List.mem_cons] at h
          rcases h with h | h
          · exact absurd h.symm hk
          · exact h
        have := ih hmem
        simp [storeAdd, hk, this.1, this.2]

theorem storeAdd_lookup_self (key : String) (e : Entry) :
    ∀ s : Store, (storeAdd s key e).lookup key = some e := by
  intro s
  induction s with
  | nil => simp [storeAdd, List.lookup]
  | cons kv rest ih =>
      obtain ⟨k₀, v₀⟩ := kv
      by_cases hk : k₀ = key
      · subst hk
        simp [storeAdd, List.lookup]
      · have hne : (key == k₀) = false := by
          simp [beq_eq_false_iff_ne]
          exact fun he => hk he.symm
        simp [storeAdd, hk, List.lookup, hne, ih]

theorem storeAddBatch_mem_keys (k : String) :
    ∀ (items : List (String × Entry)) (s : Store),
      (k ∈ (storeAddBatch s items).map Prod.fst
        ↔ k ∈ s.map Prod.fst ∨ k ∈ items.map Prod.fst) := by
  intro items
  induction items with
  | nil => intro s; simp [storeAddBatch]
  | cons it rest ih =>
      intro s
      have hstep : storeAddBatch s (it :: rest)
          = storeAddBatch (storeAdd s it.1 it.2) rest := rfl
      rw [hstep, ih, storeAdd_mem_keys]
      simp only [List.map_cons, List.mem_cons]
      tauto

theorem storeAddBatch_keys_of_subset :
    ∀ (items : List (String × Entry)) (s : Store),
      (∀ k ∈ items.map Prod.fst, k ∈ s.map Prod.fst) →
      (storeAddBatch s items).map Prod.fst = s.map Prod.fst
      ∧ (storeAddBatch s items).length = s.length := by
  intro items
  induction items with
  | nil => intro s _; exact ⟨rfl, rfl⟩
  | cons it rest ih =>
      intro s h
      have h₁ : it.1 ∈ s.map Prod.fst := h it.1 (by simp)
      have hadd := storeAdd_keys_of_mem it.1 it.2 s h₁
      have hstep : storeAddBatch s (it :: rest)
          = storeAddBatch (storeAdd s it.1 it.2) rest := rfl
      have hrest := ih (storeAdd s it.1 it.2) (fun k hk => by
        rw [hadd.1]
        exact h k (by simp [hk]))
      rw [hstep]
      exact ⟨hrest.1.trans hadd.1, hrest.2.trans hadd.2⟩

theorem indexBatch_indexedRepos (env : PipelineEnv) (st : IndexState)
    (chunks : List FileChunk) :
    ((indexBatch env st chunks).2).indexedRepos = st.indexedRepos := by
  rw [indexBatch]
  split
  · rfl
  · split <;> rfl

theorem indexBatch_store_mono (env : PipelineEnv) (st : IndexState)
    (chunks : List FileChunk) (k : String)
    (h : k ∈ st.store.map Prod.fst) :
    k ∈ ((indexBatch env st chunks).2).store.map Prod.fst := by
  rw [indexBatch]
  split
  · exact h
  · split
    · exact (storeAddBatch_mem_keys k _ _).mpr (Or.inl h)
    · exact h

theorem processLoop_indexedRepos (env : PipelineEnv) (bs : Nat) :
    ∀ (files : List String) (st : IndexState) (acc : LoopAcc),
      ((processLoop env bs files st acc).1).indexedRepos
        = st.indexedRepos := by
  intro files
  induction files with
  | nil => intro st acc; rfl
  | cons f rest ih =>
      intro st acc
      cases henv : env.processFile f with
      | error e =>
          simp only [processLoop, henv]
          exact ih st _
      | ok chunks =>
          cases chunks with
          | nil =>
              simp only [processLoop, henv]
              exact ih st _
          | cons c cs =>
              simp only [processLoop, henv]
              split
              · rcases hres : indexBatch env st
                  (acc.batch ++ c :: cs) with ⟨r, st₁⟩
                have hrec := indexBatch_indexedRepos env st
                  (acc.batch ++ c :: cs)
                rw [hres] at hrec
                cases r with
                | ok u => exact (ih _ _).trans hrec
                | error e => exact (ih _ _).trans hrec
              · exact ih st _

theorem processLoop_store_mono (env : PipelineEnv) (bs : Nat) :
    ∀ (files : List String) (st : IndexState) (acc : LoopAcc) (k : String),
      k ∈ st.store.map Prod.fst →
      k ∈ ((processLoop env bs files st acc).1).store.map Prod.fst := by
  intro files
  induction files with
  | nil => intro st acc k hk; exact hk
  | cons f rest ih =>
      intro st acc k hk
      cases henv : env.processFile f with
      | error e =>
          simp only [processLoop, henv]
          exact ih st _ k hk
      | ok chunks =>
          cases chunks with
          | nil =>
              simp only [processLoop, henv]
              exact ih st _ k hk
          | cons c cs =>
              simp only [processLoop, henv]
              split
              · rcases hres : indexBatch env st
                  (acc.batch ++ c :: cs) with ⟨r, st₁⟩
                have hrec := indexBatch_store_mono env st
                  (acc.batch ++ c :: cs) k hk
                rw [hres] at hrec
                cases r with
                | ok u => exact ih st₁ _ k hrec
                | error e => exact ih st₁ _ k hrec
              · exact ih st _ k hk

/-- C9 as amended: for a repository not currently marked indexed, a
resolution failure makes `index_repository` return `success=False` with
exactly the causing error in `errors` and leaves the state untouched; an
embedding/store failure while flushing the FINAL batch likewise returns
`success=False` with exactly the causing error as the errors list, the
state being whatever the failing flush left behind; every failing run
leaves the repository unmarked (`is_indexed` stays `False`) with a
non-empty error list; and no run ever removes a chunk id from the vector
store (no rollback — chunks committed before an abort remain).  A failure
while committing a full batch inside the file loop is caught by the
per-file handler and recorded without aborting (see the counterexample). -/
theorem c9_failure_handling (env : PipelineEnv) (bs : Nat) (url : String)
    (force : Bool) (st : IndexState)
    (hnotidx : url ∉ st.indexedRepos) :
    ((indexRepository env bs url force st).1.success = false →
      isIndexed (indexRepository env bs url force st).2 url = false
      ∧ (indexRepository env bs url force st).1.errors ≠ [])
    ∧ (∀ e, env.cloneResult = .error e →
        (indexRepository env bs url force st).1.success = false
        ∧ (indexRepository env bs url force st).1.errors = [e]
        ∧ (indexRepository env bs url force st).2 = st)
    ∧ (∀ (e : String) (s₂ : IndexState), env.cloneResult = .ok () →
        indexBatch env
            (processLoop env bs env.files st ⟨[], [], 0, 0, 0⟩).1
            (processLoop env bs env.files st ⟨[], [], 0, 0, 0⟩).2.batch
          = (.error e, s₂) →
        (indexRepository env bs url force st).1.success = false
        ∧ (indexRepository env bs url force st).1.errors = [e]
        ∧ (indexRepository env bs url force st).2 = s₂)
    ∧ (∀ k, k ∈ st.store.map Prod.fst →
        k ∈ (indexRepository env bs url force st).2.store.map Prod.fst) := by
  have hcond : ¬(force = false ∧ url ∈ st.indexedRepos) :=
    fun h => hnotidx h.2
  rw [indexRepository, if_neg hcond]
  cases hclone : env.cloneResult with
  | error e =>
      refine ⟨?_, ?_, ?_, ?_⟩
      · intro _
        constructor
        · show isIndexed st url = false
          simp [isIndexed, hnotidx]
        · show ([e] : List String) ≠ []
          simp
      · intro e₂ he₂
        injection he₂ with h
        subst h
        exact ⟨rfl, rfl, rfl⟩
      · intro e₂ s₂ hco _hfe
        simp at hco
      · intro k hk
        exact hk
  | ok u =>
      cases u
      dsimp only
      rcases hflush : indexBatch env
        (processLoop env bs env.files st ⟨[], [], 0, 0, 0⟩).1
        (processLoop env bs env.files st ⟨[], [], 0, 0, 0⟩).2.batch
        with ⟨fr, st₂⟩
      have hrepos : st₂.indexedRepos = st.indexedRepos := by
        have h₁ := indexBatch_indexedRepos env
          (processLoop env bs env.files st ⟨[], [], 0, 0, 0⟩).1
          (processLoop env bs env.files st ⟨[], [], 0, 0, 0⟩).2.batch
        rw [hflush] at h₁
        rw [h₁]
        exact processLoop_indexedRepos env bs env.files st _
      have hmono : ∀ k, k ∈ st.store.map Prod.fst →
          k ∈ st₂.store.map Prod.fst := by
        intro k hk
        have h₁ := indexBatch_store_mono env
          (processLoop env bs env.files st ⟨[], [], 0, 0, 0⟩).1
          (processLoop env bs env.files st ⟨[], [], 0, 0, 0⟩).2.batch k
          (processLoop_store_mono env bs env.files st _ k hk)
        rw [hflush] at h₁
        exact h₁
      cases fr with
      | ok u₂ =>
          refine ⟨?_, ?_, ?_, ?_⟩
          · intro hfalse
            exact Bool.noConfusion (show (true : Bool) = false from hfalse)
          · intro e₂ he₂
            simp at he₂
          · intro e₂ s₂ _hco hfe
            simp at hfe
          · intro k hk
            exact hmono k hk
      | error e =>
          refine ⟨?_, ?_, ?_, ?_⟩
          · intro _
            constructor
            · show isIndexed st₂ url = false
              simp [isIndexed, hrepos, hnotidx]
            · show ([e] : List String) ≠ []
              simp
          · intro e₂ he₂
            simp at he₂
          · intro e₂ s₂ _hco hfe
            injection hfe with h₁ h₂
            injection h₁ with h₃
            subst h₃
            subst h₂
            exact ⟨rfl, rfl, rfl⟩
          · intro k hk
            exact hmono k hk

/-- Witness for C9 (amended) at a concrete resolution failure and at a
concrete final-batch-flush embedding failure (one one-chunk file,
`batch_size = 2`, so the only flush is the final one, and an embedding
backend that always fails). -/
theorem c9_witness :
    (("u" ∉ (⟨[], [], 0⟩ : IndexState).indexedRepos)
    ∧ (indexRepository
        ⟨.error "boom", [], fun _ => .ok [], fun _ => true, fun _ => []⟩
        1 "u" true ⟨[], [], 0⟩).1.success = false
    ∧ (indexRepository
        ⟨.error "boom", [], fun _ => .ok [], fun _ => true, fun _ => []⟩
        1 "u" true ⟨[], [], 0⟩).1.errors = ["boom"])
    ∧ ((indexRepository
        ⟨.ok (), ["f"], fun _ => .ok [⟨"u:f:0", "x", "f", 0, 1, 1, "l", "u"⟩],
          fun _ => false, fun _ => []⟩
        2 "u" true ⟨[], [], 0⟩).1.success = false
    ∧ (indexRepository
        ⟨.ok (), ["f"], fun _ => .ok [⟨"u:f:0", "x", "f", 0, 1, 1, "l", "u"⟩],
          fun _ => false, fun _ => []⟩
        2 "u" true ⟨[], [], 0⟩).1.errors = ["embedding failed"]) := by
  have hn : "u" ∉ (⟨[], [], 0⟩ : IndexState).indexedRepos := by simp
  have h₁ := (c9_failure_handling
    ⟨.error "boom", [], fun _ => .ok [], fun _ => true, fun _ => []⟩
    1 "u" true ⟨[], [], 0⟩ hn).2.1 "boom" rfl
  have h₂ := (c9_failure_handling
    ⟨.ok (), ["f"], fun _ => .ok [⟨"u:f:0", "x", "f", 0, 1, 1, "l", "u"⟩],
      fun _ => false, fun _ => []⟩
    2 "u" true ⟨[], [], 0⟩ hn).2.2.1 "embedding failed" ⟨[], [], 1⟩ rfl rfl
  exact ⟨⟨hn, h₁.1, h₁.2.1⟩, h₂.1, h₂.2.1⟩

/-- C9 counterexample: the claim says an embedding failure during
`index_repository` yields `success=False` and leaves the repository
unmarked.  With two one-chunk files, `batch_size=1` and an embedding backend
that fails on its first call and succeeds afterwards, the failed mid-loop
batch flush is caught by the per-file handler: the run completes with
`success=True`, the embedding error merely recorded in `errors`, and the
repository IS marked indexed. -/
theorem c9_counterexample :
    (indexRepository
      ⟨.ok (), ["f1", "f2"],
        fun f => if f = "f1"
          then .ok [⟨"u:f1:0", "x", "f1", 0, 1, 1, "l", "u"⟩]
          else .ok [⟨"u:f2:0", "y", "f2", 0, 1, 1, "l", "u"⟩],
        fun k => k != 0, fun _ => []⟩
      1 "u" true ⟨[], [], 0⟩).1.success = true
    ∧ (indexRepository
      ⟨.ok (), ["f1", "f2"],
        fun f => if f = "f1"
          then .ok [⟨"u:f1:0", "x", "f1", 0, 1, 1, "l", "u"⟩]
          else .ok [⟨"u:f2:0", "y", "f2", 0, 1, 1, "l", "u"⟩],
        fun k => k != 0, fun _ => []⟩
      1 "u" true ⟨[], [], 0⟩).1.errors = ["f1: embedding failed"]
    ∧ isIndexed (indexRepository
      ⟨.ok (), ["f1", "f2"],
        fun f => if f = "f1"
          then .ok [⟨"u:f1:0", "x", "f1", 0, 1, 1, "l", "u"⟩]
          else .ok [⟨"u:f2:0", "y", "f2", 0, 1, 1, "l", "u"⟩],
        fun k => k != 0, fun _ => []⟩
      1 "u" true ⟨[], [], 0⟩).2 "u" = true := by
  refine ⟨by decide, by decide, by decide⟩

/-! ### Trace factorization of a fully successful indexing run

When every embedding call succeeds, the file loop's effect on the store
factors through the pure list of flushed batches, which depends only on the
environment — not on the incoming store state.  This is what makes a forced
re-index commit exactly the same chunk ids a second time. -/

/-- The batches flushed inside the file loop, as a pure function of the
environment, the remaining files and the running buffer. -/
def loopBatches (env : PipelineEnv) (bs : Nat) :
    List String → List FileChunk → List (List FileChunk)
  | [], _batch => []
  | f :: rest, batch =>
      match env.processFile f with
      | .error _ => loopBatches env bs rest batch
      | .ok [] => loopBatches env bs rest batch
      | .ok (c :: cs) =>
          if bs ≤ (batch ++ (c :: cs)).length then
            (batch ++ (c :: cs)) :: loopBatches env bs rest []
          else loopBatches env bs rest (batch ++ (c :: cs))

/-- The chunk buffer left over after the file loop, as a pure function of
the environment. -/
def loopRemBatch (env : PipelineEnv) (bs : Nat) :
    List String → List FileChunk → List FileChunk
  | [], batch => batch
  | f :: rest, batch =>
      match env.processFile f with
      | .error _ => loopRemBatch env bs rest batch
      | .ok [] => loopRemBatch env bs rest batch
      | .ok (c :: cs) =>
          if bs ≤ (batch ++ (c :: cs)).length then loopRemBatch env bs rest []
          else loopRemBatch env bs rest (batch ++ (c :: cs))

/-- Committing a list of chunk batches to the store in order. -/
def commitBatches (env : PipelineEnv) (s : Store)
    (ts : List (List FileChunk)) : Store :=
  ts.foldl (fun s₀ b => storeAddBatch s₀ (b.map (chunkItem env))) s

theorem indexBatch_ok_store (env : PipelineEnv)
    (hok : ∀ k, env.embedOk k = true) (st : IndexState)
    (chunks : List FileChunk) :
    (indexBatch env st chunks).1 = .ok ()
    ∧ ((indexBatch env st chunks).2).store
      = storeAddBatch st.store (chunks.map (chunkItem env)) := by
  by_cases h : chunks = []
  · subst h
    rw [indexBatch, if_pos rfl]
    exact ⟨rfl, rfl⟩
  · rw [indexBatch, if_neg h, if_pos (hok _)]
    exact ⟨rfl, rfl⟩

theorem processLoop_factor (env : PipelineEnv) (bs : Nat)
    (hok : ∀ k, env.embedOk k = true) :
    ∀ (files : List String) (st : IndexState) (acc : LoopAcc),
      ((processLoop env bs files st acc).1).store
        = commitBatches env st.store (loopBatches env bs files acc.batch)
      ∧ ((processLoop env bs files st acc).2).batch
        = loopRemBatch env bs files acc.batch := by
  intro files
  induction files with
  | nil => intro st acc; exact ⟨rfl, rfl⟩
  | cons f rest ih =>
      intro st acc
      cases henv : env.processFile f with
      | error e =>
          simp only [processLoop, loopBatches, loopRemBatch, henv]
          exact ih st _
      | ok chunks =>
          cases chunks with
          | nil =>
              simp only [processLoop, loopBatches, loopRemBatch, henv]
              exact ih st _
          | cons c cs =>
              simp only [processLoop, loopBatches, loopRemBatch, henv]
              by_cases hb : bs ≤ (acc.batch ++ c :: cs).length
              · simp only [if_pos hb]
                have hib : indexBatch env st (acc.batch ++ c :: cs)
                    = (.ok (), { st with
                        store := storeAddBatch st.store
                          ((acc.batch ++ c :: cs).map (chunkItem env)),
                        embedCalls := st.embedCalls + 1 }) := by
                  rw [indexBatch, if_neg (by simp), if_pos (hok _)]
                rw [hib]
                exact ⟨(ih _ _).1, (ih _ _).2⟩
              · simp only [if_neg hb]
                exact ih st _

theorem processLoop_acc_indep (env : PipelineEnv) (bs : Nat)
    (hok : ∀ k, env.embedOk k = true) :
    ∀ (files : List String) (st st₂ : IndexState) (acc : LoopAcc),
      (processLoop env bs files st acc).2
        = (processLoop env bs files st₂ acc).2 := by
  intro files
  induction files with
  | nil => intro st st₂ acc; rfl
  | cons f rest ih =>
      intro st st₂ acc
      cases henv : env.processFile f with
      | error e =>
          simp only [processLoop, henv]
          exact ih st st₂ _
      | ok chunks =>
          cases chunks with
          | nil =>
              simp only [processLoop, henv]
              exact ih st st₂ _
          | cons c cs =>
              simp only [processLoop, henv]
              by_cases hb : bs ≤ (acc.batch ++ c :: cs).length
              · simp only [if_pos hb]
                have hib₁ : indexBatch env st (acc.batch ++ c :: cs)
                    = (.ok (), { st with
                        store := storeAddBatch st.store
                          ((acc.batch ++ c :: cs).map (chunkItem env)),
                        embedCalls := st.embedCalls + 1 }) := by
                  rw [indexBatch, if_neg (by simp), if_pos (hok _)]
                have hib₂ : indexBatch env st₂ (acc.batch ++ c :: cs)
                    = (.ok (), { st₂ with
                        store := storeAddBatch st₂.store
                          ((acc.batch ++ c :: cs).map (chunkItem env)),
                        embedCalls := st₂.embedCalls + 1 }) := by
                  rw [indexBatch, if_neg (by simp), if_pos (hok _)]
                rw [hib₁, hib₂]
                exact ih _ _ _
              · simp only [if_neg hb]
                exact ih st st₂ _

theorem indexRepository_ok_run (env : PipelineEnv) (bs : Nat) (url : String)
    (hclone : env.cloneResult = .ok ()) (hok : ∀ k, env.embedOk k = true)
    (st : IndexState) :
    (indexRepository env bs url true st).1
      = ⟨true, url, env.files.length,
          (processLoop env bs env.files st ⟨[], [], 0, 0, 0⟩).2.indexedFiles,
          (processLoop env bs env.files st ⟨[], [], 0, 0, 0⟩).2.totalChunks,
          (processLoop env bs env.files st ⟨[], [], 0, 0, 0⟩).2.skippedFiles,
          (processLoop env bs env.files st ⟨[], [], 0, 0, 0⟩).2.errors⟩
    ∧ ((indexRepository env bs url true st).2).store
      = commitBatches env st.store
          (loopBatches env bs env.files []
            ++ [loopRemBatch env bs env.files []]) := by
  rw [indexRepository, if_neg (by simp), hclone]
  dsimp only
  have hf := processLoop_factor env bs hok env.files st ⟨[], [], 0, 0, 0⟩
  rcases hflush : indexBatch env
      (processLoop env bs env.files st ⟨[], [], 0, 0, 0⟩).1
      (processLoop env bs env.files st ⟨[], [], 0, 0, 0⟩).2.batch
    with ⟨fr, st₂⟩
  have hib := indexBatch_ok_store env hok
    (processLoop env bs env.files st ⟨[], [], 0, 0, 0⟩).1
    (processLoop env bs env.files st ⟨[], [], 0, 0, 0⟩).2.batch
  rw [hflush] at hib
  have hfr : fr = .ok () := hib.1
  subst hfr
  constructor
  · rfl
  · show st₂.store = commitBatches env st.store
      (loopBatches env bs env.files [] ++ [loopRemBatch env bs env.files []])
    have hst₂ : st₂.store
        = storeAddBatch
            ((processLoop env bs env.files st ⟨[], [], 0, 0, 0⟩).1).store
            (((processLoop env bs env.files st
              ⟨[], [], 0, 0, 0⟩).2.batch).map (chunkItem env)) := hib.2
    rw [hst₂, hf.1, hf.2, commitBatches, commitBatches, List.foldl_append]
    rfl

theorem commitBatches_mem_keys (env : PipelineEnv) (k : String) :
    ∀ (ts : List (List FileChunk)) (s : Store),
      (k ∈ (commitBatches env s ts).map Prod.fst
        ↔ k ∈ s.map Prod.fst ∨ ∃ b ∈ ts, k ∈ b.map FileChunk.id) := by
  intro ts
  induction ts with
  | nil => intro s; simp [commitBatches]
  | cons b rest ih =>
      intro s
      have hstep : commitBatches env s (b :: rest)
          = commitBatches env (storeAddBatch s (b.map (chunkItem env)))
            rest := rfl
      have hkeys : (b.map (chunkItem env)).map Prod.fst
          = b.map FileChunk.id := by
        rw [List.map_map]
        rfl
      rw [hstep, ih, storeAddBatch_mem_keys, hkeys]
      constructor
      · rintro ((h | h) | ⟨b₂, hb₂, hk⟩)
        · exact Or.inl h
        · exact Or.inr ⟨b, List.mem_cons_self _ _, h⟩
        · exact Or.inr ⟨b₂, List.mem_cons_of_mem _ hb₂, hk⟩
      · rintro (h | ⟨b₂, hb₂, hk⟩)
        · exact Or.inl (Or.inl h)
        · rcases List.mem_cons.mp hb₂ with rfl | hb₂
          · exact Or.inl (Or.inr hk)
          · exact Or.inr ⟨b₂, hb₂, hk⟩

theorem commitBatches_keys_of_subset (env : PipelineEnv) :
    ∀ (ts : List (List FileChunk)) (s : Store),
      (∀ b ∈ ts, ∀ c ∈ b, c.id ∈ s.map Prod.fst) →
      (commitBatches env s ts).map Prod.fst = s.map Prod.fst
      ∧ (commitBatches env s ts).length = s.length := by
  intro ts
  induction ts with
  | nil => intro s _; exact ⟨rfl, rfl⟩
  | cons b rest ih =>
      intro s h
      have hb := storeAddBatch_keys_of_subset (b.map (chunkItem env)) s
        (fun k hk => by
          rw [List.map_map] at hk
          obtain ⟨c, hc, rfl⟩ := List.mem_map.mp hk
          exact h b (List.mem_cons_self _ _) c hc)
      have hrest := ih (storeAddBatch s (b.map (chunkItem env)))
        (fun b₂ hb₂ c hc => by
          rw [hb.1]
          exact h b₂ (List.mem_cons_of_mem _ hb₂) c hc)
      exact ⟨hrest.1.trans hb.1, hrest.2.trans hb.2⟩

theorem chunkAux_id (cs ov : Nat) (url path lang : String) (total : Nat) :
    ∀ (rem : List String) (i : Nat) (cur : List String)
      (curStart curSize idx : Nat),
      ∀ c ∈ chunkAux cs ov url path lang total rem i cur curStart curSize idx,
        c.id = mkChunkId url path c.chunk_index := by
  intro rem
  induction rem with
  | nil =>
      intro i cur curStart curSize idx c hc
      rw [chunkAux] at hc
      split at hc
      · simp at hc
      · rw [List.mem_singleton] at hc
        subst hc
        rfl
  | cons line rest ih =>
      intro i cur curStart curSize idx c hc
      rw [chunkAux] at hc
      split at hc
      · rcases List.mem_cons.mp hc with rfl | hc
        · rfl
        · exact ih _ _ _ _ _ c hc
      · exact ih _ _ _ _ _ c hc

/-- C1: with a deterministic environment (same repository content) where
resolution and every embedding call succeed, running `index_repository` a
second time with `force=true` leaves the vector index with exactly the same
key list and the same entry count as after the first run, and returns an
identical `IndexingResult` (in particular the same `total_chunks`); each
chunk id is deterministically derived as
`f"{repo_url}:{file_path}:{chunk_index}"`; and `add` with an existing id
overwrites the stored entry in place (same store length, new value) rather
than accumulating a duplicate. -/
theorem c1_forced_reindex_idempotent (env : PipelineEnv) (bs : Nat)
    (url : String) (st₀ : IndexState)
    (hclone : env.cloneResult = .ok ()) (hok : ∀ k, env.embedOk k = true) :
    (((indexRepository env bs url true
        ((indexRepository env bs url true st₀).2)).2).store.map Prod.fst
      = (((indexRepository env bs url true st₀).2).store.map Prod.fst))
    ∧ ((indexRepository env bs url true
        ((indexRepository env bs url true st₀).2)).2).store.length
      = ((indexRepository env bs url true st₀).2).store.length
    ∧ (indexRepository env bs url true
        ((indexRepository env bs url true st₀).2)).1
      = (indexRepository env bs url true st₀).1
    ∧ (∀ (csz ovl : Nat) (content p l : String),
        ∀ c ∈ chunkContent csz ovl content url p l,
          c.id = mkChunkId url p c.chunk_index)
    ∧ (∀ (s : Store) (key : String) (e : Entry), key ∈ s.map Prod.fst →
        (storeAdd s key e).length = s.length
        ∧ (storeAdd s key e).lookup key = some e) := by
  have h₁ := indexRepository_ok_run env bs url hclone hok st₀
  have h₂ := indexRepository_ok_run env bs url hclone hok
    ((indexRepository env bs url true st₀).2)
  have hsub : ∀ b ∈ loopBatches env bs env.files []
      ++ [loopRemBatch env bs env.files []], ∀ c ∈ b,
      c.id ∈ (((indexRepository env bs url true st₀).2).store.map
        Prod.fst) := by
    intro b hb c hc
    rw [h₁.2]
    exact (commitBatches_mem_keys env c.id _ st₀.store).mpr
      (Or.inr ⟨b, hb, List.mem_map_of_mem FileChunk.id hc⟩)
  have hkeys := commitBatches_keys_of_subset env
    (loopBatches env bs env.files [] ++ [loopRemBatch env bs env.files []])
    (((indexRepository env bs url true st₀).2).store) hsub
  refine ⟨?_, ?_, ?_, ?_, ?_⟩
  · rw [h₂.2]
    exact hkeys.1
  · rw [h₂.2]
    exact hkeys.2
  · rw [h₁.1, h₂.1,
      processLoop_acc_indep env bs hok env.files
        ((indexRepository env bs url true st₀).2) st₀ ⟨[], [], 0, 0, 0⟩]
  · intro csz ovl content p l c hc
    exact chunkAux_id csz ovl url p l _ _ _ _ _ _ _ c hc
  · intro s key e hmem
    exact ⟨(storeAdd_keys_of_mem key e s hmem).2,
      storeAdd_lookup_self key e s⟩

/-- Witness for C1 at a concrete one-file environment. -/
theorem c1_witness :
    (((indexRepository
        ⟨.ok (), ["f"], fun _ => .ok [⟨"u:f:0", "x", "f", 0, 1, 1, "l", "u"⟩],
          fun _ => true, fun _ => []⟩ 1 "u" true
        ((indexRepository
          ⟨.ok (), ["f"], fun _ => .ok [⟨"u:f:0", "x", "f", 0, 1, 1, "l", "u"⟩],
            fun _ => true, fun _ => []⟩ 1 "u" true ⟨[], [], 0⟩).2)).2).store.map
          Prod.fst
      = (((indexRepository
          ⟨.ok (), ["f"], fun _ => .ok [⟨"u:f:0", "x", "f", 0, 1, 1, "l", "u"⟩],
            fun _ => true, fun _ => []⟩ 1 "u" true ⟨[], [], 0⟩).2).store.map
            Prod.fst)) :=
  (c1_forced_reindex_idempotent
    ⟨.ok (), ["f"], fun _ => .ok [⟨"u:f:0", "x", "f", 0, 1, 1, "l", "u"⟩],
      fun _ => true, fun _ => []⟩ 1 "u" ⟨[], [], 0⟩ rfl (fun _ => rfl)).1

end Scout
